import Mathlib

/-!
Verification of the audimeta-splitter chapter pipeline.

Shallow embedding of the audimeta-splitter repository
(`audimeta_splitter/audio_splitter.py` and
`audimeta_splitter/audimeta_client.py`, version 1.0.6).

Pure string/number manipulations are translated directly; the effectful
parts (ffmpeg invocations, tagging, file removal) are modelled as an
explicit event trace produced by the same control flow as the Python
source, with an environment (`SplitEnv`) supplying the exit codes of the
external tool and the internal success of the tagging step.
-/

/-! ## Title sanitization (`AudioSplitter.sanitize_filename`)

The Python source removes the characters listed in `invalid_chars` with a
join over a generator expression, then calls `.strip()`, then truncates with
`filename[:200] if len(filename) > 200 else filename`.
-/

/-- The character set removed by `sanitize_filename` (`invalid_chars` in the
source). -/
def invalid_chars : List Char := ['<', '>', ':', '\"', '/', '\\', '|', '?', '*']

/-- Characters kept by the sanitizer generator expression. -/
def keepValid (c : Char) : Bool := !(invalid_chars.contains c)

/-- ASCII whitespace removed by Python `str.strip()` with no argument. -/
def pyIsSpace (c : Char) : Bool :=
  c == ' ' || c == '\t' || c == '\n' || c == '\r' || c == '\x0b' || c == '\x0c'

/-- Python `str.strip()`: drop whitespace from the front, then from the back. -/
def pyStrip (l : List Char) : List Char :=
  ((l.dropWhile pyIsSpace).reverse.dropWhile pyIsSpace).reverse

/-- `AudioSplitter.sanitize_filename`: remove the invalid characters, strip
surrounding whitespace, cap at 200 characters. -/
def sanitize_filename (s : String) : String :=
  let filtered := s.data.filter keepValid
  let stripped := pyStrip filtered
  if stripped.length > 200 then String.mk (stripped.take 200) else String.mk stripped

/-- Python `f"{i:02d}"`: decimal rendering zero-padded to width two. -/
def pad2 (i : Nat) : String :=
  if i < 10 then "0" ++ toString i else toString i

/-- Output filename built in `split_by_chapters`:
`f"{i:02d}_{safe_title}.mp3"` with `safe_title = sanitize_filename(title)`. -/
def output_filename (i : Nat) (title : String) : String :=
  pad2 i ++ "_" ++ sanitize_filename title ++ ".mp3"

/-! ## Chapter processing (`AudiMetaClient.fetch_chapters`) -/

/-- A raw chapter object from the `/chapters/{asin}` endpoint; every field is
optional in the JSON. -/
structure RawChapter where
  title : Option String
  startOffsetSec : Option Int
  lengthMs : Option Nat
deriving Repr, DecidableEq

/-- A processed chapter as built by `fetch_chapters`. -/
structure Chapter where
  title : String
  start : Int
  duration : Nat
deriving Repr, DecidableEq

/-- One iteration of the processing loop in `fetch_chapters`: the title is
`chapter.get("title", "Unknown")`, the start is
`chapter.get("startOffsetSec", 0)`, and the duration is
`int(chapter.get("lengthMs", 0) / 1000)`.  For the natural numbers in play,
Python `int(x / 1000)` (truncation) agrees with `Nat` division. -/
def process_chapter (c : RawChapter) : Chapter :=
  { title := c.title.getD "Unknown"
  , start := c.startOffsetSec.getD 0
  , duration := c.lengthMs.getD 0 / 1000 }

/-- The `for chapter in chapters: processed_chapters.append(...)` loop of
`fetch_chapters`. -/
def process_chapters : List RawChapter → List Chapter
  | [] => []
  | c :: rest => process_chapter c :: process_chapters rest

/-- `AudiMetaClient.fetch_chapters` at the level the session sees: a request
or format error yields `None`; otherwise the processed list is returned. -/
def fetch_chapters (resp : Option (List RawChapter)) : Option (List Chapter) :=
  match resp with
  | none => none
  | some raw => some (process_chapters raw)

/-! ## File metadata (`AudiMetaClient.get_metadata_from_file`) -/

/-- The tag frames `get_metadata_from_file` reads, already passed through
`str(...)`; a missing frame reads as the empty string, per
`str(audio.tags.get("TIT2", ""))`. -/
structure TagSet where
  tit2 : String
  talb : String
  tpe1 : String
deriving Repr, DecidableEq

/-- What opening the first input file can yield: an exception from `MP3(...)`
(unreadable), a readable file with a falsy tag container, or readable tags. -/
inductive FileRead where
  | unreadable
  | read (tags : Option TagSet)
deriving Repr, DecidableEq

/-- The metadata dictionary returned by `get_metadata_from_file`. -/
structure Metadata where
  title : String
  author : String
  region : String
deriving Repr, DecidableEq

/-- The fixed dictionary returned when the tag container is absent. -/
def fallback_metadata : Metadata :=
  { title := "Mother", author := "m.s. RedCherries", region := "US" }

/-- Python `a or b` on strings: the first operand unless it is empty. -/
def pyOr (a b : String) : String := if a ≠ "" then a else b

/-- `AudiMetaClient.get_metadata_from_file`: an exception returns `None`
(the except path in the source), a falsy tag container returns the fixed
fallback dictionary, and present tags are read with `or`-chained fallbacks. -/
def get_metadata_from_file : FileRead → Option Metadata
  | .unreadable => none
  | .read none => some fallback_metadata
  | .read (some t) =>
      some { title := pyOr t.tit2 (pyOr t.talb "Mother")
           , author := pyOr t.tpe1 "m.s. RedCherries"
           , region := "US" }

/-! ## Splitting and the session (`AudioSplitter`)

The effects of the run are recorded as an event trace.  `SplitEnv` supplies
the outcomes of the external interactions: the exit code of the per-chapter
ffmpeg extraction (indexed by the 1-based chapter number), whether tagging
an output raised internally (`tag_file` in the source catches and logs every
exception, so this never escapes), and the exit code of the ffmpeg
concatenation. -/

/-- Observable filesystem / subprocess events of a run. -/
inductive Event where
  | createManifest
  | concatRun (ecode : Int)
  | removeManifest
  | extract (i : Nat) (name : String) (start : Int) (dur : Nat) (ecode : Int)
  | tagAttempt (i : Nat) (ok : Bool)
  | removeOriginal (f : String)
  | removeCombined
deriving Repr, DecidableEq

/-- Environment fixing the outcome of each external interaction. -/
structure SplitEnv where
  extractExit : Nat → Int
  tagOk : Nat → Bool
  concatExit : Int

/-- One iteration of the loop in `split_by_chapters`: run the extraction
command; on a nonzero exit code `continue` without incrementing the success
counter; otherwise call `tag_file` (which swallows its own failures) and
count the entry as successful. -/
def split_entry (env : SplitEnv) (i : Nat) (c : Chapter) : List Event × Bool :=
  let name := output_filename i c.title
  let e := env.extractExit i
  if e ≠ 0 then ([Event.extract i name c.start c.duration e], false)
  else ([Event.extract i name c.start c.duration e, Event.tagAttempt i (env.tagOk i)], true)

/-- The `for i, chapter in enumerate(chapters, 1)` sweep, returning the trace
and the value of `successful_splits`. -/
def split_loop (env : SplitEnv) : Nat → List Chapter → List Event × Nat
  | _, [] => ([], 0)
  | i, c :: rest =>
    let r := split_entry env i c
    let s := split_loop env (i + 1) rest
    (r.1 ++ s.1, (if r.2 then 1 else 0) + s.2)

/-- `AudioSplitter.split_by_chapters`: sweep all chapters and return
`successful_splits == len(chapters)`. -/
def split_by_chapters (chapters : List Chapter) (env : SplitEnv) : List Event × Bool :=
  let r := split_loop env 1 chapters
  (r.1, r.2 == chapters.length)

/-- `AudioSplitter.combine_mp3_files`: with a single file nothing happens
and that file is returned.  Otherwise the manifest is written, ffmpeg concat
runs, and the `finally` clause removes the manifest whether or not the run
raised; a nonzero exit code raises (`none`). -/
def combine_mp3_files (files : List String) (env : SplitEnv) : List Event × Option String :=
  if files.length == 1 then ([], some (files.headD ""))
  else
    let evs := [Event.createManifest, Event.concatRun env.concatExit, Event.removeManifest]
    if env.concatExit ≠ 0 then (evs, none) else (evs, some "combined_temp.mp3")

/-- The cleanup block of `process_folder`: only when splitting reported full
success are the original inputs removed, followed by the combined temporary
file when more than one input existed. -/
def cleanup_events (files : List String) (ok : Bool) : List Event :=
  if ok then
    files.map Event.removeOriginal ++
      (if files.length > 1 then [Event.removeCombined] else [])
  else []

/-- `AudioSplitter.process_folder`: the guard chain (no files / no metadata /
no book match / no chapters / empty chapter list), then combination, then the
chapter sweep, then conditional cleanup.  The returned Bool is
`splitting_successful`, the value `process_folder` returns. -/
def process_folder (files : List String) (fr : FileRead) (book : Option String)
    (resp : Option (List RawChapter)) (env : SplitEnv) : List Event × Bool :=
  if files = [] then ([], false)
  else
    match get_metadata_from_file fr with
    | none => ([], false)
    | some _ =>
      match book with
      | none => ([], false)
      | some _ =>
        match fetch_chapters resp with
        | none => ([], false)
        | some chapters =>
          if chapters = [] then ([], false)
          else
            let comb := combine_mp3_files files env
            match comb.2 with
            | none => (comb.1, false)
            | some _ =>
              let sp := split_by_chapters chapters env
              ((comb.1 ++ sp.1) ++ cleanup_events files sp.2, sp.2)

/-! ## Concrete fixtures used by witnesses and counterexamples -/

/-- Environment in which every external step succeeds. -/
def env_ok : SplitEnv := ⟨fun _ => 0, fun _ => true, 0⟩

/-- Environment in which every per-chapter extraction fails. -/
def env_fail1 : SplitEnv := ⟨fun _ => 1, fun _ => true, 0⟩

/-- Environment in which extraction succeeds but tagging fails internally. -/
def env_tagfail : SplitEnv := ⟨fun _ => 0, fun _ => false, 0⟩

/-- A well-formed raw chapter. -/
def rc_demo : RawChapter := ⟨some "Intro", some 0, some 300000⟩

/-- A processed demo chapter. -/
def ch_demo : Chapter := ⟨"Intro", 0, 300⟩

/-! ## Helper notions for trace reasoning -/

/-- The 1-based indices `i, i+1, ..., i+n-1` visited by an `enumerate` loop. -/
def chapter_indices : Nat → Nat → List Nat
  | _, 0 => []
  | i, n + 1 => i :: chapter_indices (i + 1) n

/-- Project an extraction event to its invocation data (index, output
filename, start offset, duration). -/
def extract_info : Event → Option (Nat × String × Int × Nat)
  | .extract i n s d _ => some (i, n, s, d)
  | _ => none

/-- All extraction invocations recorded in a trace, in order. -/
def extracts (evs : List Event) : List (Nat × String × Int × Nat) :=
  evs.filterMap extract_info

/-- The cutting plan the sweep is expected to execute: one entry per
chapter, in order, with 1-based indices and verbatim start/duration. -/
def plan_entries : Nat → List Chapter → List (Nat × String × Int × Nat)
  | _, [] => []
  | i, c :: rest => (i, output_filename i c.title, c.start, c.duration) :: plan_entries (i + 1) rest

theorem chapter_indices_length (n : Nat) : ∀ i, (chapter_indices i n).length = n := by
  induction n with
  | zero => intro i; rfl
  | succ n ih => intro i; simp [chapter_indices, ih]

theorem plan_entries_length (cs : List Chapter) : ∀ i, (plan_entries i cs).length = cs.length := by
  induction cs with
  | nil => intro i; rfl
  | cons c rest ih => intro i; simp [plan_entries, ih]

theorem split_loop_cnt (env : SplitEnv) (cs : List Chapter) :
    ∀ i, (split_loop env i cs).2 =
      (chapter_indices i cs.length).countP (fun j => env.extractExit j == 0) := by
  induction cs with
  | nil => intro i; simp [split_loop, chapter_indices]
  | cons c rest ih =>
    intro i
    simp only [split_loop, split_entry, List.length_cons, chapter_indices, List.countP_cons, ih]
    by_cases h : env.extractExit i = 0 <;> simp [h, Nat.add_comm]

theorem extracts_append (a b : List Event) : extracts (a ++ b) = extracts a ++ extracts b :=
  List.filterMap_append a b extract_info

theorem split_loop_extracts (env : SplitEnv) (cs : List Chapter) :
    ∀ i, extracts (split_loop env i cs).1 = plan_entries i cs := by
  induction cs with
  | nil => intro i; rfl
  | cons c rest ih =>
    intro i
    show extracts ((split_entry env i c).1 ++ (split_loop env (i + 1) rest).1) = _
    rw [extracts_append, ih]
    by_cases hx : env.extractExit i = 0 <;>
      simp [split_entry, hx, extracts, extract_info, plan_entries]

theorem split_mem_cases (env : SplitEnv) (cs : List Chapter) :
    ∀ i e, e ∈ (split_loop env i cs).1 →
      (∃ j n s d x, e = Event.extract j n s d x) ∨ ∃ j b, e = Event.tagAttempt j b := by
  induction cs with
  | nil => intro i e h; simp [split_loop] at h
  | cons c rest ih =>
    intro i e h
    simp only [split_loop, List.mem_append] at h
    rcases h with h | h
    · by_cases hx : env.extractExit i = 0 <;> simp [split_entry, hx] at h
      · rcases h with h | h
        · exact Or.inl ⟨_, _, _, _, _, h⟩
        · exact Or.inr ⟨_, _, h⟩
      · exact Or.inl ⟨_, _, _, _, _, h⟩
    · exact ih _ e h

theorem combine_mem_cases (files : List String) (env : SplitEnv) (e : Event) :
    e ∈ (combine_mp3_files files env).1 →
      e = Event.createManifest ∨ e = Event.concatRun env.concatExit ∨
        e = Event.removeManifest := by
  unfold combine_mp3_files
  split
  · intro h; simp at h
  · split <;> (intro h; simp only [List.mem_cons, List.not_mem_nil, or_false] at h; tauto)

theorem cleanup_mem_cases (files : List String) (ok : Bool) (e : Event) :
    e ∈ cleanup_events files ok →
      (∃ f, e = Event.removeOriginal f) ∨ e = Event.removeCombined := by
  unfold cleanup_events
  split
  · intro h
    simp only [List.mem_append] at h
    rcases h with h | h
    · rcases List.mem_map.mp h with ⟨f, _, hf⟩
      exact Or.inl ⟨f, hf.symm⟩
    · split at h <;> simp at h
      exact Or.inr h
  · intro h; simp at h

theorem append_index_lt {α : Type} (xs ys : List α) (a b : α) (i j : Nat)
    (ha : (xs ++ ys)[i]? = some a) (hna : a ∉ ys)
    (hb : (xs ++ ys)[j]? = some b) (hnb : b ∉ xs) : i < j := by
  have hi : i < xs.length := by
    by_contra hlt
    push_neg at hlt
    rw [List.getElem?_append_right hlt] at ha
    exact hna (List.getElem?_mem ha)
  have hj : xs.length ≤ j := by
    by_contra hlt
    push_neg at hlt
    rw [List.getElem?_append, if_pos hlt] at hb
    exact hnb (List.getElem?_mem hb)
  omega

/-- Control-flow decomposition of `process_folder`: either one of the guard
branches returned early with an empty trace, or the run reached combination
and possibly the sweep. -/
theorem process_folder_decomp (files : List String) (fr : FileRead) (book : Option String)
    (resp : Option (List RawChapter)) (env : SplitEnv) :
    process_folder files fr book resp env = ([], false) ∨
    ∃ chapters, fetch_chapters resp = some chapters ∧ chapters ≠ [] ∧ files ≠ [] ∧
      ((process_folder files fr book resp env = ((combine_mp3_files files env).1, false) ∧
          (combine_mp3_files files env).2 = none) ∨
       (process_folder files fr book resp env =
          (((combine_mp3_files files env).1 ++ (split_by_chapters chapters env).1) ++
            cleanup_events files (split_by_chapters chapters env).2,
           (split_by_chapters chapters env).2) ∧
          (combine_mp3_files files env).2 ≠ none)) := by
  by_cases hfiles : files = []
  · exact Or.inl (by simp [process_folder, hfiles])
  cases hmeta : get_metadata_from_file fr with
  | none => exact Or.inl (by simp [process_folder, hfiles, hmeta])
  | some m =>
    cases book with
    | none => exact Or.inl (by simp [process_folder, hfiles, hmeta])
    | some b =>
      cases hch : fetch_chapters resp with
      | none => exact Or.inl (by simp [process_folder, hfiles, hmeta, hch])
      | some chapters =>
        by_cases hne : chapters = []
        · exact Or.inl (by simp [process_folder, hfiles, hmeta, hch, hne])
        · refine Or.inr ⟨chapters, rfl, hne, hfiles, ?_⟩
          cases hcomb : (combine_mp3_files files env).2 with
          | none =>
            exact Or.inl ⟨by simp [process_folder, hfiles, hmeta, hch, hne, hcomb], rfl⟩
          | some s =>
            refine Or.inr ⟨?_, by simp [hcomb]⟩
            simp [process_folder, hfiles, hmeta, hch, hne, hcomb, split_by_chapters]

/-! ## Sanitization lemmas -/

theorem str_ext (a b : String) (h : a.data = b.data) : a = b := by
  cases a; cases b; exact congrArg String.mk h

theorem sanitize_data_eq (s : String) :
    (sanitize_filename s).data =
      if (pyStrip (s.data.filter keepValid)).length > 200
      then (pyStrip (s.data.filter keepValid)).take 200
      else pyStrip (s.data.filter keepValid) := by
  simp only [sanitize_filename]
  split <;> rfl

theorem dropWhile_head_not {α : Type} (p : α → Bool) :
    ∀ (l : List α) {x : α} {xs : List α}, l.dropWhile p = x :: xs → p x = false := by
  intro l
  induction l with
  | nil => intro x xs h; simp [List.dropWhile] at h
  | cons a t ih =>
    intro x xs h
    rw [List.dropWhile_cons] at h
    split at h
    · exact ih h
    · cases h; simp_all

theorem dropWhile_eq_self_of_head {α : Type} (p : α → Bool) (x : α) (xs : List α)
    (h : p x = false) : (x :: xs).dropWhile p = x :: xs := by
  rw [List.dropWhile_cons, h]; simp

theorem dropWhile_idem {α : Type} (p : α → Bool) (l : List α) :
    (l.dropWhile p).dropWhile p = l.dropWhile p := by
  cases h : l.dropWhile p with
  | nil => rfl
  | cons x xs => exact dropWhile_eq_self_of_head p x xs (dropWhile_head_not p l h)

theorem dropWhile_suffix_exists {α : Type} (p : α → Bool) (l : List α) :
    ∃ t, t ++ l.dropWhile p = l := by
  induction l with
  | nil => exact ⟨[], rfl⟩
  | cons a t ih =>
    rw [List.dropWhile_cons]
    split
    · obtain ⟨u, hu⟩ := ih; exact ⟨a :: u, by simp [hu]⟩
    · exact ⟨[], rfl⟩

theorem pyStrip_sublist (l : List Char) : (pyStrip l).Sublist l := by
  have h2 : (((l.dropWhile pyIsSpace).reverse.dropWhile pyIsSpace)).Sublist
      (l.dropWhile pyIsSpace).reverse := List.dropWhile_sublist _
  have h4 : (((l.dropWhile pyIsSpace).reverse.dropWhile pyIsSpace)).reverse.Sublist
      (l.dropWhile pyIsSpace) := by
    rw [← List.reverse_sublist]
    simpa using h2
  exact h4.trans (List.dropWhile_sublist _)

theorem pyStrip_idem (l : List Char) : pyStrip (pyStrip l) = pyStrip l := by
  unfold pyStrip
  set a := l.dropWhile pyIsSpace with ha
  set b := a.reverse.dropWhile pyIsSpace with hb
  have h1 : b.reverse.dropWhile pyIsSpace = b.reverse := by
    cases hbr : b.reverse with
    | nil => rfl
    | cons x xs =>
      obtain ⟨t, ht⟩ := dropWhile_suffix_exists pyIsSpace a.reverse
      have hsplit : b.reverse ++ t.reverse = a := by
        have := congrArg List.reverse ht
        simpa [List.reverse_append, ← hb] using this
      have hax : a = x :: (xs ++ t.reverse) := by
        rw [← hsplit, hbr]; simp
      have hpx : pyIsSpace x = false :=
        dropWhile_head_not pyIsSpace l (ha.symm.trans hax)
      exact dropWhile_eq_self_of_head pyIsSpace x xs hpx
  rw [h1, List.reverse_reverse, hb, dropWhile_idem]

/-! ## Claim theorems -/

/-- Claim C10: each processed chapter entry takes its title verbatim (with
default "Unknown"), its start from `startOffsetSec` verbatim (default 0),
and its duration as `lengthMs` divided by 1000 and truncated (default 0);
order and count of the input list are preserved. -/
theorem processed_chapters_fieldwise (raw : List RawChapter) :
    (process_chapters raw).length = raw.length ∧
    ∀ i : Nat, (process_chapters raw)[i]? = (raw[i]?).map (fun c =>
      ({ title := c.title.getD "Unknown"
       , start := c.startOffsetSec.getD 0
       , duration := c.lengthMs.getD 0 / 1000 } : Chapter)) := by
  induction raw with
  | nil => exact ⟨rfl, fun i => by cases i <;> rfl⟩
  | cons c rest ih =>
    refine ⟨by simp [process_chapters, ih.1], fun i => ?_⟩
    cases i with
    | zero => simp [process_chapters, process_chapter]
    | succ n => simpa [process_chapters] using ih.2 n

/-- Claim C1 counterexample: two chapters carrying only start offsets 10 and
20 (no `lengthMs`), with a notional total duration of 100, get computed
durations [0, 0] — not the boundary differences [10, 80] the claim states. -/
theorem start_difference_fallback_refuted :
    ((process_chapters [⟨some "A", some 10, none⟩, ⟨some "B", some 20, none⟩]).map
        fun c => (c.duration : Int)) = [0, 0] ∧
    ((process_chapters [⟨some "A", some 10, none⟩, ⟨some "B", some 20, none⟩]).map
        fun c => (c.duration : Int)) ≠ [20 - 10, 100 - 20] := by decide

/-- Claim C1 amended: when no entry carries an explicit nonzero `lengthMs`,
every computed duration is 0 (the code applies no start-difference
fallback), so the durations sum to 0 rather than `total - start(1)`. -/
theorem missing_length_gives_zero_duration :
    ∀ raw : List RawChapter, (∀ c ∈ raw, c.lengthMs.getD 0 = 0) →
      (process_chapters raw).map (fun c => c.duration) = List.replicate raw.length 0 ∧
      ((process_chapters raw).map (fun c => c.duration)).sum = 0 := by
  intro raw
  induction raw with
  | nil => exact fun _ => ⟨rfl, rfl⟩
  | cons c rest ih =>
    intro h
    obtain ⟨ih1, ih2⟩ := ih fun x hx => h x (List.mem_cons_of_mem _ hx)
    have hc : c.lengthMs.getD 0 = 0 := h c (List.mem_cons_self _ _)
    refine ⟨?_, ?_⟩
    · simp [process_chapters, process_chapter, hc, ih1, List.replicate_succ]
    · simp [process_chapters, process_chapter, hc, ih2]

/-- Claim C1 amended, witness. -/
theorem missing_length_gives_zero_duration_witness :
    (∀ c ∈ [(⟨some "A", some 10, none⟩ : RawChapter)], c.lengthMs.getD 0 = 0) ∧
    ((process_chapters [(⟨some "A", some 10, none⟩ : RawChapter)]).map (fun c => c.duration) =
        List.replicate [(⟨some "A", some 10, none⟩ : RawChapter)].length 0 ∧
      ((process_chapters [(⟨some "A", some 10, none⟩ : RawChapter)]).map
          (fun c => c.duration)).sum = 0) :=
  ⟨by decide, missing_length_gives_zero_duration _ (by decide)⟩

/-- Claim C4: an empty chapter list makes the session fail before any
splitting: the run returns failure with an empty trace (no plan, no cut,
no deletion). -/
theorem empty_chapter_list_aborts (files : List String) (fr : FileRead)
    (book : Option String) (env : SplitEnv) :
    process_folder files fr book (some []) env = ([], false) := by
  by_cases hfiles : files = []
  · simp [process_folder, hfiles]
  cases hmeta : get_metadata_from_file fr with
  | none => simp [process_folder, hfiles, hmeta]
  | some m =>
    cases book with
    | none => simp [process_folder, hfiles, hmeta]
    | some b => simp [process_folder, hfiles, hmeta, fetch_chapters, process_chapters]

/-- Claim C9 counterexample: an unreadable file yields `None` (not the
fallback tuple) and the session aborts with an empty trace. -/
theorem unreadable_file_aborts_session :
    get_metadata_from_file FileRead.unreadable = none ∧
    get_metadata_from_file FileRead.unreadable ≠ some fallback_metadata ∧
    process_folder ["a.mp3"] FileRead.unreadable (some "B") (some [rc_demo]) env_ok =
      ([], false) := by decide

/-- Claim C9 amended: with an absent tag container extraction returns the
fixed fallback tuple and the session proceeds (here: all the way to the
chapter sweep); with an unreadable file it returns `None` and the session
aborts at once. -/
theorem metadata_fallback_and_abort_behavior :
    get_metadata_from_file (FileRead.read none) = some fallback_metadata ∧
    (∀ (files : List String) (book : Option String) (resp : Option (List RawChapter))
        (env : SplitEnv),
      process_folder files FileRead.unreadable book resp env = ([], false)) ∧
    Event.extract 1 (output_filename 1 "Intro") 0 300 0 ∈
      (process_folder ["a.mp3"] (FileRead.read none) (some "B") (some [rc_demo]) env_ok).1 := by
  refine ⟨rfl, ?_, by decide⟩
  intro files book resp env
  by_cases hfiles : files = []
  · simp [process_folder, hfiles]
  · simp [process_folder, hfiles, get_metadata_from_file]

/-- Claim C6 counterexample: the title "Chapter: One/Two?" sanitizes to
"Chapter OneTwo" — the interior space survives, so the fragment is not the
claimed "ChapterOneTwo". -/
theorem sanitize_example_keeps_space :
    sanitize_filename "Chapter: One/Two?" = "Chapter OneTwo" ∧
    sanitize_filename "Chapter: One/Two?" ≠ "ChapterOneTwo" := by decide

/-- Claim C6 amended: sanitization only deletes characters (the output is an
order-preserving subsequence of the input), every surviving character is
outside the invalid set, the result is capped at 200 characters, the example
title "Chapter: One/Two?" becomes "Chapter OneTwo", and the output filename
is the zero-padded 2-digit index, an underscore, the sanitized title and the
".mp3" extension. -/
theorem sanitize_spec (s : String) :
    (sanitize_filename s).data.Sublist s.data ∧
    (sanitize_filename s).data.all keepValid = true ∧
    (sanitize_filename s).data.length ≤ 200 ∧
    sanitize_filename "Chapter: One/Two?" = "Chapter OneTwo" ∧
    ∀ (i : Nat) (t : String),
      output_filename i t = pad2 i ++ "_" ++ sanitize_filename t ++ ".mp3" := by
  have hsub : (sanitize_filename s).data.Sublist (pyStrip (s.data.filter keepValid)) := by
    rw [sanitize_data_eq]
    split
    · exact List.take_sublist _ _
    · exact List.Sublist.refl _
  refine ⟨?_, ?_, ?_, by decide, fun i t => rfl⟩
  · exact hsub.trans ((pyStrip_sublist _).trans (List.filter_sublist _))
  · rw [List.all_eq_true]
    intro c hc
    have h1 : c ∈ s.data.filter keepValid :=
      (pyStrip_sublist _).subset (hsub.subset hc)
    exact (List.mem_filter.mp h1).2
  · rw [sanitize_data_eq]
    split
    · rw [List.length_take]; omega
    · omega

set_option maxRecDepth 10000 in
/-- Claim C7 counterexample: a 201-character title made of the letter a
repeated 199 times, then a space, then the letter b, sanitizes to the 199
leading letters followed by the space (the 200-character cap cuts right
after the space), and sanitizing again strips that trailing space — so
sanitization is not idempotent. -/
theorem sanitize_not_idempotent_after_truncation :
    sanitize_filename (sanitize_filename
        (String.mk (List.replicate 199 'a' ++ [' ', 'b']))) ≠
      sanitize_filename (String.mk (List.replicate 199 'a' ++ [' ', 'b'])) := by decide

/-- Claim C7 amended: sanitization is idempotent on every input whose
filtered and stripped form fits the 200-character cap (truncation is the
only source of non-idempotence, by exposing trailing whitespace). -/
theorem sanitize_idempotent_without_truncation (s : String)
    (h : (pyStrip (s.data.filter keepValid)).length ≤ 200) :
    sanitize_filename (sanitize_filename s) = sanitize_filename s := by
  have hu : (sanitize_filename s).data = pyStrip (s.data.filter keepValid) := by
    rw [sanitize_data_eq]
    exact if_neg (by omega)
  have hfilter : (pyStrip (s.data.filter keepValid)).filter keepValid =
      pyStrip (s.data.filter keepValid) := by
    apply List.filter_eq_self.mpr
    intro a hma
    exact (List.mem_filter.mp ((pyStrip_sublist _).subset hma)).2
  apply str_ext
  rw [sanitize_data_eq (sanitize_filename s), hu, hfilter, pyStrip_idem, if_neg (by omega)]

/-- Claim C7 amended, witness. -/
theorem sanitize_idempotent_without_truncation_witness :
    (pyStrip (" My Chapter ".data.filter keepValid)).length ≤ 200 ∧
    sanitize_filename (sanitize_filename " My Chapter ") = sanitize_filename " My Chapter " :=
  ⟨by decide, sanitize_idempotent_without_truncation " My Chapter " (by decide)⟩

theorem split_by_chapters_fst (chapters : List Chapter) (env : SplitEnv) :
    (split_by_chapters chapters env).1 = (split_loop env 1 chapters).1 := rfl

theorem split_by_chapters_snd (chapters : List Chapter) (env : SplitEnv) :
    (split_by_chapters chapters env).2 = ((split_loop env 1 chapters).2 == chapters.length) := rfl

/-- Claim C3 counterexample: a chapter whose extraction succeeds but whose
tagging fails is still counted as successful — the sweep reports aggregate
success even though the trace records the failed tagging attempt. -/
theorem tag_failure_does_not_block_success :
    (split_by_chapters [ch_demo] env_tagfail).2 = true ∧
    Event.tagAttempt 1 false ∈ (split_by_chapters [ch_demo] env_tagfail).1 := by decide

/-- Claim C3 amended: the sweep attempts every entry (one extraction
invocation per chapter, failures notwithstanding), and reports aggregate
success exactly when the extraction of every entry exited with 0; tagging
failures are swallowed inside `tag_file` and do not affect the aggregate. -/
theorem sweep_attempts_all_and_success_iff_extraction (chapters : List Chapter)
    (env : SplitEnv) :
    (extracts (split_by_chapters chapters env).1).length = chapters.length ∧
    ((split_by_chapters chapters env).2 = true ↔
      ∀ j ∈ chapter_indices 1 chapters.length, env.extractExit j = 0) := by
  constructor
  · rw [split_by_chapters_fst, split_loop_extracts, plan_entries_length]
  · rw [split_by_chapters_snd, beq_iff_eq]
    have key : ((split_loop env 1 chapters).2 = chapters.length) ↔
        ∀ j ∈ chapter_indices 1 chapters.length, (env.extractExit j == 0) = true := by
      rw [split_loop_cnt]
      constructor
      · intro h
        exact List.countP_eq_length.mp (h.trans (chapter_indices_length chapters.length 1).symm)
      · intro h
        exact (List.countP_eq_length.mpr h).trans (chapter_indices_length chapters.length 1)
    rw [key]
    simp [beq_iff_eq]

/-- Claim C5 counterexample: a chapter whose end (start 0 + duration 500)
exceeds a total duration of 100 by far more than any small tolerance is
still attempted — its extraction command appears in the trace, so it was not
excluded from the plan. -/
theorem out_of_range_entry_still_attempted :
    Event.extract 1 (output_filename 1 "A") 0 500 0 ∈
      (split_by_chapters [⟨"A", 0, 500⟩] env_ok).1 ∧
    ((⟨"A", 0, 500⟩ : Chapter).start + ((⟨"A", 0, 500⟩ : Chapter).duration : Int) > 100) := by
  decide

/-- Claim C5 amended: the code performs no range validation at all — for
every chapter list (including entries whose computed end exceeds the total
duration) the executed plan contains exactly one entry per chapter, in the
original order, with the original 1-based sequence index and the verbatim
start offset and duration. -/
theorem no_entry_excluded_from_plan (chapters : List Chapter) (env : SplitEnv) :
    extracts (split_by_chapters chapters env).1 = plan_entries 1 chapters :=
  split_loop_extracts env chapters 1

theorem combine_cases (files : List String) (env : SplitEnv) :
    ((combine_mp3_files files env).1 = [] ∧ (files.length == 1) = true) ∨
    ((combine_mp3_files files env).1 =
        [Event.createManifest, Event.concatRun env.concatExit, Event.removeManifest] ∧
      files.length ≠ 1) := by
  unfold combine_mp3_files
  by_cases h : (files.length == 1) = true
  · exact Or.inl ⟨by simp [h], h⟩
  · refine Or.inr ⟨?_, by simpa using h⟩
    by_cases h2 : env.concatExit ≠ 0 <;> simp [h, h2]

/-- Claim C2: original inputs are removed only when the sweep reported every
entry successful; if the report is failure no original is removed; and in
the trace every extraction precedes every original-file removal. -/
theorem originals_deleted_only_after_full_success (files : List String) (fr : FileRead)
    (book : Option String) (resp : Option (List RawChapter)) (env : SplitEnv) :
    ((process_folder files fr book resp env).2 = false →
      ∀ f, Event.removeOriginal f ∉ (process_folder files fr book resp env).1) ∧
    (∀ f, Event.removeOriginal f ∈ (process_folder files fr book resp env).1 →
      (process_folder files fr book resp env).2 = true) ∧
    (∀ (iE iR j : Nat) (n : String) (s : Int) (d : Nat) (x : Int) (f : String),
      (process_folder files fr book resp env).1[iE]? = some (Event.extract j n s d x) →
      (process_folder files fr book resp env).1[iR]? = some (Event.removeOriginal f) →
      iE < iR) := by
  rcases process_folder_decomp files fr book resp env with
    h | ⟨chapters, hch, hne, hfiles, ⟨heq, hcomb⟩ | ⟨heq, hcomb⟩⟩
  · rw [h]
    exact ⟨fun _ f => by simp, fun f hf => by simp at hf,
      fun iE iR j n s d x f hE hR => by simp at hR⟩
  · have h1 : (process_folder files fr book resp env).1 = (combine_mp3_files files env).1 := by
      rw [heq]
    have hnomem : ∀ f, Event.removeOriginal f ∉ (combine_mp3_files files env).1 := by
      intro f hf
      rcases combine_mem_cases files env _ hf with h2 | h2 | h2 <;> simp at h2
    rw [h1]
    exact ⟨fun _ f => hnomem f, fun f hf => absurd hf (hnomem f),
      fun iE iR j n s d x f hE hR => absurd (List.getElem?_mem hR) (hnomem f)⟩
  · have h1 : (process_folder files fr book resp env).1 =
        ((combine_mp3_files files env).1 ++ (split_by_chapters chapters env).1) ++
          cleanup_events files (split_by_chapters chapters env).2 := by
      rw [heq]
    have h2 : (process_folder files fr book resp env).2 =
        (split_by_chapters chapters env).2 := by
      rw [heq]
    have hnopre : ∀ f, Event.removeOriginal f ∉
        (combine_mp3_files files env).1 ++ (split_by_chapters chapters env).1 := by
      intro f hf
      rcases List.mem_append.mp hf with hx | hx
      · rcases combine_mem_cases files env _ hx with h3 | h3 | h3 <;> simp at h3
      · rw [split_by_chapters_fst] at hx
        rcases split_mem_cases env chapters 1 _ hx with ⟨j, n, s, d, e, h3⟩ | ⟨j, b, h3⟩ <;>
          simp at h3
    have hnocl : ∀ (j : Nat) (n : String) (s : Int) (d : Nat) (x : Int),
        Event.extract j n s d x ∉ cleanup_events files (split_by_chapters chapters env).2 := by
      intro j n s d x hx
      rcases cleanup_mem_cases files _ _ hx with ⟨f, h3⟩ | h3 <;> simp at h3
    rw [h1, h2]
    refine ⟨?_, ?_, ?_⟩
    · intro hres f hf
      rw [hres, show cleanup_events files false = [] from rfl, List.append_nil] at hf
      exact hnopre f hf
    · intro f hf
      rcases List.mem_append.mp hf with hx | hx
      · exact absurd hx (hnopre f)
      · cases hs : (split_by_chapters chapters env).2 with
        | false => rw [hs, show cleanup_events files false = [] from rfl] at hx; simp at hx
        | true => rfl
    · intro iE iR j n s d x f hE hR
      exact append_index_lt _ _ _ _ iE iR hE (hnocl j n s d x) hR (hnopre f)

/-- Claim C2, witness: in a run whose only chapter fails to cut, the
original input is not removed. -/
theorem originals_deleted_only_after_full_success_witness :
    Event.removeOriginal "a.mp3" ∉
      (process_folder ["a.mp3"] (FileRead.read none) (some "B") (some [rc_demo]) env_fail1).1 :=
  (originals_deleted_only_after_full_success ["a.mp3"] (FileRead.read none) (some "B")
    (some [rc_demo]) env_fail1).1 (by decide) "a.mp3"

/-- Claim C8 counterexample: two input files are concatenated and the single
chapter then fails to cut — the manifest is removed (the `finally` clause)
but the intermediate combined file is not, because its removal is guarded by
splitting success. -/
theorem combined_file_left_on_split_failure :
    Event.removeManifest ∈
      (process_folder ["a.mp3", "b.mp3"] (FileRead.read none) (some "B")
        (some [rc_demo]) env_fail1).1 ∧
    Event.removeCombined ∉
      (process_folder ["a.mp3", "b.mp3"] (FileRead.read none) (some "B")
        (some [rc_demo]) env_fail1).1 ∧
    (process_folder ["a.mp3", "b.mp3"] (FileRead.read none) (some "B")
        (some [rc_demo]) env_fail1).2 = false := by decide

/-- Claim C8 amended: whenever the manifest is created it is also removed by
end of run (even when concatenation or splitting fails), but the
intermediate combined file is removed only in runs whose splitting
succeeded. -/
theorem manifest_always_removed_combined_only_on_success (files : List String)
    (fr : FileRead) (book : Option String) (resp : Option (List RawChapter))
    (env : SplitEnv) :
    (Event.createManifest ∈ (process_folder files fr book resp env).1 →
      Event.removeManifest ∈ (process_folder files fr book resp env).1) ∧
    (Event.removeCombined ∈ (process_folder files fr book resp env).1 →
      (process_folder files fr book resp env).2 = true) ∧
    ((process_folder files fr book resp env).2 = true →
      Event.createManifest ∈ (process_folder files fr book resp env).1 →
      Event.removeCombined ∈ (process_folder files fr book resp env).1) := by
  rcases process_folder_decomp files fr book resp env with
    h | ⟨chapters, hch, hne, hfiles, ⟨heq, hcomb⟩ | ⟨heq, hcomb⟩⟩
  · rw [h]
    exact ⟨fun hc => by simp at hc, fun hc => by simp at hc, fun hres => by simp at hres⟩
  · have h1 : (process_folder files fr book resp env).1 = (combine_mp3_files files env).1 := by
      rw [heq]
    have h2 : (process_folder files fr book resp env).2 = false := by rw [heq]
    rw [h1, h2]
    refine ⟨?_, ?_, ?_⟩
    · intro hc
      rcases combine_cases files env with ⟨hnil, _⟩ | ⟨hlist, _⟩
      · rw [hnil] at hc; simp at hc
      · rw [hlist] at hc ⊢; simp
    · intro hc
      rcases combine_mem_cases files env _ hc with h3 | h3 | h3 <;> simp at h3
    · intro hres; simp at hres
  · have h1 : (process_folder files fr book resp env).1 =
        ((combine_mp3_files files env).1 ++ (split_by_chapters chapters env).1) ++
          cleanup_events files (split_by_chapters chapters env).2 := by
      rw [heq]
    have h2 : (process_folder files fr book resp env).2 =
        (split_by_chapters chapters env).2 := by
      rw [heq]
    rw [h1, h2]
    refine ⟨?_, ?_, ?_⟩
    · intro hc
      have hcm : Event.createManifest ∈ (combine_mp3_files files env).1 := by
        rcases List.mem_append.mp hc with hx | hx
        · rcases List.mem_append.mp hx with hy | hy
          · exact hy
          · exfalso
            rw [split_by_chapters_fst] at hy
            rcases split_mem_cases env chapters 1 _ hy with ⟨j, n, s, d, e, h3⟩ | ⟨j, b, h3⟩ <;>
              simp at h3
        · exfalso
          rcases cleanup_mem_cases files _ _ hx with ⟨f, h3⟩ | h3 <;> simp at h3
      rcases combine_cases files env with ⟨hnil, _⟩ | ⟨hlist, _⟩
      · rw [hnil] at hcm; simp at hcm
      · refine List.mem_append_left _ (List.mem_append_left _ ?_)
        rw [hlist] at hcm ⊢; simp
    · intro hc
      rcases List.mem_append.mp hc with hx | hx
      · exfalso
        rcases List.mem_append.mp hx with hy | hy
        · rcases combine_mem_cases files env _ hy with h3 | h3 | h3 <;> simp at h3
        · rw [split_by_chapters_fst] at hy
          rcases split_mem_cases env chapters 1 _ hy with ⟨j, n, s, d, e, h3⟩ | ⟨j, b, h3⟩ <;>
            simp at h3
      · cases hs : (split_by_chapters chapters env).2 with
        | false => rw [hs, show cleanup_events files false = [] from rfl] at hx; simp at hx
        | true => rfl
    · intro hres hc
      have hcm : Event.createManifest ∈ (combine_mp3_files files env).1 := by
        rcases List.mem_append.mp hc with hx | hx
        · rcases List.mem_append.mp hx with hy | hy
          · exact hy
          · exfalso
            rw [split_by_chapters_fst] at hy
            rcases split_mem_cases env chapters 1 _ hy with ⟨j, n, s, d, e, h3⟩ | ⟨j, b, h3⟩ <;>
              simp at h3
        · exfalso
          rcases cleanup_mem_cases files _ _ hx with ⟨f, h3⟩ | h3 <;> simp at h3
      rcases combine_cases files env with ⟨hnil, _⟩ | ⟨hlist, hlen⟩
      · rw [hnil] at hcm; simp at hcm
      · have hgt : files.length > 1 := by
          have hnz : files.length ≠ 0 := fun hh => hfiles (List.length_eq_zero.mp hh)
          omega
        apply List.mem_append_right
        rw [hres]
        simp [cleanup_events, hgt]

/-- Claim C8 amended, witness: a successful two-file run removes the
combined temporary file. -/
theorem manifest_always_removed_combined_only_on_success_witness :
    Event.removeCombined ∈
      (process_folder ["a.mp3", "b.mp3"] (FileRead.read none) (some "B")
        (some [rc_demo]) env_ok).1 :=
  (manifest_always_removed_combined_only_on_success ["a.mp3", "b.mp3"] (FileRead.read none)
    (some "B") (some [rc_demo]) env_ok).2.2 (by decide) (by decide)

/-- Claim C3 amended, witness: with every extraction exiting 0 the sweep
reports aggregate success. -/
theorem sweep_attempts_all_and_success_iff_extraction_witness :
    (split_by_chapters [ch_demo] env_ok).2 = true :=
  ((sweep_attempts_all_and_success_iff_extraction [ch_demo] env_ok).2).mpr (by decide)
